import Mathlib

/-!
# Verification of the diff-to-position translation core of `reviewer`

Shallow embedding of `src/reviewer/main.py`: the two diff parsing routines
(`parse_diff_with_positions` over the structured patch set, and the
line-oriented fallback `parse_diff_manual`), the exclusion filter
(`should_exclude_file`, `filter_hunks_by_file`) and the finding position
resolver inside `analyze_hunks`.

Python strings are modelled through character lists so that every
operation is executable by the kernel.  Python `int` is modelled as `Int`.
-/

namespace Reviewer

/-- Embedding of Python `str.splitlines` restricted to LF line
terminators (the diff text is normalised to LF, spec section 6): split at
every newline character and do not produce a final empty line for a
trailing terminator. -/
def splitlinesList : List Char → List String
  | [] => []
  | '\n' :: cs => "" :: splitlinesList cs
  | c :: cs =>
    match splitlinesList cs with
    | [] => [String.singleton c]
    | l :: ls => (String.singleton c ++ l) :: ls

/-- `splitlines` on whole strings, as used at `main.py:187` and
`main.py:299`. -/
def splitlines (s : String) : List String :=
  splitlinesList s.toList

/-- Embedding of Python `line[n:]` (character-wise slicing). -/
def strDrop (s : String) : Nat → String :=
  fun n => String.mk (s.toList.drop n)

/-- Embedding of Python `line[:n]` (character-wise slicing). -/
def strTake (s : String) : Nat → String :=
  fun n => String.mk (s.toList.take n)

/-- Embedding of Python `s.startswith(p)`. -/
def strStartsWith (s p : String) : Bool :=
  p.toList.isPrefixOf s.toList

/-- Embedding of Python `"\n".join(lines)` (`main.py:174` and
`main.py:218`). -/
def joinLines : List String → String
  | [] => ""
  | [l] => l
  | l :: ls => l ++ "\n" ++ joinLines ls

/-- `HunkContext` (`main.py:52-56`): the unit handed to per-hunk
analysis. -/
structure HunkContext where
  file_path : String
  hunk_content : String
  start_position : Int
deriving DecidableEq, Repr, Inhabited

/-! ## Structured parsing (`parse_diff_with_positions`, `main.py:143-181`)

The structured route feeds the diff text to the external `unidiff`
library (`PatchSet(diff_text)`) and walks the resulting
files / hunks / lines.  `unidiff` is not part of this repository, so the
shape of its output and its tokenisation are modelled from the spec
(sections 3 and 4.1); the position arithmetic and the skip / drop logic
are translated from `main.py`. -/

/-- Modelled from the spec: one physical diff body line as surfaced by the
external structured diff library — a kind marker (`line_type`, one
character: context, added or removed) and the line's text without the
marker (`value`).  Spec section 3, `DiffLine`. -/
structure DiffLine where
  line_type : String
  value : String
deriving DecidableEq, Repr

/-- Modelled from the spec: a hunk is a contiguous run of diff lines
following one range header (spec section 3, `Hunk`). -/
structure Hunk where
  lines : List DiffLine
deriving DecidableEq, Repr, Inhabited

/-- Modelled from the spec: one file of the structured patch set, with the
path under which the external library reports it (spec section 4.1). -/
structure PatchedFile where
  path : String
  hunks : List Hunk
deriving DecidableEq, Repr

/-- Modelled from the spec: the structured patch set is the ordered list
of file segments (spec section 4.1, order preservation). -/
abbrev PatchSet := List PatchedFile

/-- `f"{line.line_type}{line.value}"` (`main.py:168`). -/
def renderLine (l : DiffLine) : String :=
  l.line_type ++ l.value

/-- The `hunk_lines` list built at `main.py:166-168`. -/
def hunkRendered (h : Hunk) : List String :=
  h.lines.map renderLine

/-- The per-file loop body of `parse_diff_with_positions`
(`main.py:158-179`): `position` starts at 1, each hunk's
`start_position` is `position + 1` (skipping the `@@` header), a hunk
with an empty `hunk_lines` list is not appended, and `position` advances
by `1 + len(hunk_lines)` per hunk. -/
def processHunks (path : String) : Int → List Hunk → List HunkContext
  | _, [] => []
  | position, h :: rest =>
    let hunk_lines := hunkRendered h
    (if hunk_lines.isEmpty then ([] : List HunkContext)
     else [⟨path, joinLines hunk_lines, position + 1⟩]) ++
      processHunks path (position + 1 + hunk_lines.length) rest

/-- `parse_diff_with_positions` (`main.py:143-181`) on an already
structured patch set (the success branch of the `try`): files whose path
is the null-device sentinel or empty are skipped (`main.py:155-156`),
every other file is processed with a fresh position counter. -/
def parse_diff_with_positions (ps : PatchSet) : List HunkContext :=
  ps.flatMap fun f =>
    if f.path = "/dev/null" ∨ f.path = "" then []
    else processHunks f.path 1 f.hunks

/-! ### Text-level structured tokenizer, modelled from the spec -/

/-- Modelled from the spec: the boundaries at which a hunk's body ends —
the next range header, the next file-segment start, or end of input
(spec section 4.1). -/
def specBoundary (l : String) : Bool :=
  strStartsWith l "@@" || strStartsWith l "diff --git" ||
    strStartsWith l "--- " || strStartsWith l "+++ "

/-- Modelled from the spec: a raw body line split into its kind marker
and its text (spec section 3, `DiffLine`). -/
def mkDiffLine (l : String) : DiffLine :=
  ⟨strTake l 1, strDrop l 1⟩

/-- Modelled from the spec: the hunks of one file segment — each begins
at a range-header line (`@@`) and extends to the next boundary (spec
section 4.1). -/
def segHunks : List String → List Hunk
  | [] => []
  | l :: ls =>
    if strStartsWith l "@@" then
      ⟨(ls.takeWhile (fun x => !specBoundary x)).map mkDiffLine⟩ ::
        segHunks (ls.dropWhile (fun x => !specBoundary x))
    else segHunks ls
termination_by ls => ls.length
decreasing_by
  · have h := (List.dropWhile_sublist (l := ls) (fun x => !specBoundary x)).length_le
    simp only [List.length_cons]
    omega
  · simp

/-- Modelled from the spec: the target path recorded for a file segment —
the text after the added-file marker, with a leading `b/` stripped when
present, so that a deleted file surfaces as the null-device sentinel
(spec section 4.1). -/
def pathOf (l : String) : String :=
  if strStartsWith (strDrop l 4) "b/" then strDrop l 6 else strDrop l 4

/-- Modelled from the spec: file segments of the diff text — a new file
segment begins at the added-file path marker and runs to the next one
(spec section 4.1). -/
def fileSegments : List String → List (String × List String)
  | [] => []
  | l :: ls =>
    if strStartsWith l "+++ " then
      (pathOf l, ls.takeWhile (fun x => !strStartsWith x "+++ ")) ::
        fileSegments (ls.dropWhile (fun x => !strStartsWith x "+++ "))
    else fileSegments ls
termination_by ls => ls.length
decreasing_by
  · have h := (List.dropWhile_sublist (l := ls)
      (fun x => !strStartsWith x "+++ ")).length_le
    simp only [List.length_cons]
    omega
  · simp

/-- Modelled from the spec: the structured tokenisation performed by the
external `unidiff` library (`PatchSet(diff_text)`, `main.py:148`), which
is not part of this repository — spec sections 3 and 4.1. -/
def tokenize_spec (t : String) : PatchSet :=
  (fileSegments (splitlines t)).map fun fs => ⟨fs.1, segHunks fs.2⟩

/-- The structured route of `parse_diff_with_positions` on raw text: the
`try` branch of `main.py:147-152` in which the structured parse
succeeds. -/
def parse_diff_structured (t : String) : List HunkContext :=
  parse_diff_with_positions (tokenize_spec t)

/-! ## Fallback parsing (`parse_diff_manual`, `main.py:184-227`) -/

/-- Python truthiness of the `current_file` variable: `None` and the
empty string are falsy. -/
def truthy : Option String → Bool
  | none => false
  | some s => s != ""

/-- The loop condition of the inner `while` at `main.py:209`: a line
belongs to the current hunk when it is neither a range header nor a
`diff --git` line. -/
def manualBody (l : String) : Bool :=
  !strStartsWith l "@@" && !strStartsWith l "diff --git"

/-- The `while i < len(lines)` loop of `parse_diff_manual`
(`main.py:192-225`), state = (remaining lines, `current_file`,
`position`).  Note the unconditional tail of the loop body
(`main.py:223-224`): after any non-header line, `position` is advanced
exactly when `current_file` is truthy — including right after the
`+++ b/` line that set it. -/
def manualGo : List String → Option String → Int → List HunkContext
  | [], _, _ => []
  | line :: rest, current_file, position =>
    if strStartsWith line "diff --git" then
      manualGo rest none 1
    else if strStartsWith line "+++ b/" then
      let cf := some (strDrop line 6)
      manualGo rest cf (if truthy cf then position + 1 else position)
    else if strStartsWith line "@@" && truthy current_file then
      let hunk_lines := rest.takeWhile manualBody
      (if hunk_lines.isEmpty then ([] : List HunkContext)
       else [⟨current_file.getD "", joinLines hunk_lines, position + 1⟩]) ++
        manualGo (rest.dropWhile manualBody) current_file
          (position + 1 + hunk_lines.length)
    else
      manualGo rest current_file
        (if truthy current_file then position + 1 else position)
termination_by ls _ _ => ls.length
decreasing_by
  · simp
  · simp
  · have h := (List.dropWhile_sublist (l := rest) manualBody).length_le
    simp only [List.length_cons]
    omega
  · simp

/-- `parse_diff_manual` (`main.py:184-227`). -/
def parse_diff_manual (t : String) : List HunkContext :=
  manualGo (splitlines t) none 1

/-! ## File filtering (`should_exclude_file`, `filter_hunks_by_file`,
`main.py:253-272`) -/

/-- Modelled from the spec: glob matching as performed by the Python
standard library's `fnmatch.fnmatch` (not part of this repository) on
the patterns this system uses — `*` matches any run of characters
including path separators, `?` matches exactly one character, everything
else matches literally, case-sensitively, with no directory-aware
special-casing (spec section 4.4). -/
def globMatch : List Char → List Char → Bool
  | [], [] => true
  | '*' :: ps, [] => globMatch ps []
  | '*' :: ps, c :: cs => globMatch ps (c :: cs) || globMatch ('*' :: ps) cs
  | '?' :: ps, _ :: cs => globMatch ps cs
  | p :: ps, c :: cs => (p == c) && globMatch ps cs
  | _ :: _, [] => false
  | [], _ :: _ => false
termination_by ps cs => (ps.length, cs.length)

/-- Modelled from the spec: `fnmatch.fnmatch(name, pattern)` as used at
`main.py:255` (on a POSIX host the case normalisation is the
identity). -/
def fnmatch (name pattern : String) : Bool :=
  globMatch pattern.toList name.toList

/-- `should_exclude_file` (`main.py:253-255`). -/
def should_exclude_file (file_path : String) (exclude_patterns : List String) : Bool :=
  exclude_patterns.any fun pattern => fnmatch file_path pattern

/-- `filter_hunks_by_file` (`main.py:258-272`): the `filtered` list built
by the loop (the `excluded_files` set only feeds diagnostics). -/
def filter_hunks_by_file : List HunkContext → List String → List HunkContext
  | [], _ => []
  | hunk :: rest, exclude_patterns =>
    if should_exclude_file hunk.file_path exclude_patterns then
      filter_hunks_by_file rest exclude_patterns
    else
      hunk :: filter_hunks_by_file rest exclude_patterns

/-! ## Finding position resolution (`analyze_hunks`, `main.py:275-318`)

The generative-model collaborator (`agent.run_sync`) is external; it is
abstracted as a function from the hunk under analysis to `none` (the
collaborator raised) or `some` structured result.  Diagnostics (the
warning and error prints) are modelled as a second output list. -/

/-- `ReviewItem` (`main.py:59-73`).  `line_number` is a Python `int`
(the model's declared lower bound does not constrain this embedding, the
range check at `main.py:301` is what is verified). -/
structure ReviewItem where
  line_number : Int
  review_comment : String
  severity : String
deriving DecidableEq, Repr

/-- `ReviewResult` (`main.py:76-85`). -/
structure ReviewResult where
  summary : String
  reviews : List ReviewItem
deriving DecidableEq, Repr

/-- The review-comment dictionaries appended at `main.py:307-312`. -/
structure ReviewComment where
  path : String
  position : Int
  body : String
deriving DecidableEq, Repr

/-- The diagnostic printed at `main.py:302` for an out-of-range
`line_number`. -/
def outOfRangeMsg (item : ReviewItem) (hunk : HunkContext) : String :=
  "Warning: line_number " ++ toString item.line_number ++
    " out of range for hunk with " ++
    toString (splitlines hunk.hunk_content).length ++ " lines"

/-- One iteration of the `for item in review_result.reviews` loop
(`main.py:297-312`): bounds check against the line count of
`hunk_content`, then `position = start_position + (line_number - 1)` and
the severity-tagged body. -/
def resolve_item (hunk : HunkContext) (item : ReviewItem) : Option ReviewComment :=
  let hunk_lines := splitlines hunk.hunk_content
  if item.line_number < 1 ∨ item.line_number > hunk_lines.length then
    none
  else
    some ⟨hunk.file_path, hunk.start_position + (item.line_number - 1),
      "**[" ++ item.severity.toUpper ++ "]** " ++ item.review_comment⟩

/-- The full findings loop of one hunk (`main.py:297-312`): first
component the comments appended, second the emitted diagnostics, both in
processing order. -/
def process_reviews (hunk : HunkContext) : List ReviewItem → List ReviewComment × List String
  | [] => ([], [])
  | item :: rest =>
    let done := process_reviews hunk rest
    match resolve_item hunk item with
    | some c => (c :: done.1, done.2)
    | none => (done.1, outOfRangeMsg item hunk :: done.2)

/-- The diagnostic printed at `main.py:315` when the analysis
collaborator raises for a hunk (the exception text itself is external
and not modelled). -/
def errMsg (hunk : HunkContext) : String :=
  "Error analyzing " ++ hunk.file_path

/-- `analyze_hunks` (`main.py:275-318`) with the external collaborator
abstracted: `none` models `agent.run_sync` raising, in which case the
hunk's findings are skipped and the loop continues (`main.py:314-316`).
First component the accumulated `review_comments`, second the emitted
diagnostics. -/
def analyze_hunks (agent : HunkContext → Option ReviewResult) :
    List HunkContext → List ReviewComment × List String
  | [] => ([], [])
  | hunk :: rest =>
    let done := analyze_hunks agent rest
    match agent hunk with
    | none => (done.1, errMsg hunk :: done.2)
    | some rr =>
      let pr := process_reviews hunk rr.reviews
      (pr.1 ++ done.1, pr.2 ++ done.2)

/-! ## Concrete sample inputs used by closed theorems and witnesses -/

/-- The single-file, single-hunk diff of spec section 8, scenario 6. -/
def sampleDiff : String :=
  "diff --git a/f b/f\n--- a/f\n+++ b/f\n@@ -1,3 +1,4 @@\n context1\n+added1\n context2\n context3\n"

/-- The `HunkContext` both parsers are expected to build from
`sampleDiff` (up to the fallback's starting position). -/
def sampleContent : String :=
  " context1\n+added1\n context2\n context3"

/-- A diff whose only hunk body line is the empty string. -/
def emptyLineDiff : String :=
  "+++ b/f\n@@ -1 +1 @@\n\n"

/-- A diff text whose first range header precedes any added-file path
marker. -/
def orphanHeaderDiff : String :=
  "@@ -1,2 +1,2 @@\n context\n+late\n+++ b/f\n@@ -1 +1,1 @@\n+x\n"

/-- A two-file patch set with a deletion segment between two ordinary
files. -/
def sampleSet : PatchSet :=
  [⟨"a.py", [⟨[⟨"+", "x"⟩, ⟨" ", "y"⟩]⟩]⟩,
   ⟨"/dev/null", [⟨[⟨"-", "gone"⟩]⟩]⟩,
   ⟨"b.py", [⟨[⟨" ", "u"⟩]⟩, ⟨[⟨"+", "v"⟩, ⟨"+", "w"⟩, ⟨" ", "z"⟩]⟩]⟩]

/-- A collaborator stub that fails exactly on files named `bad`. -/
def sampleAgent : HunkContext → Option ReviewResult :=
  fun hunk =>
    if hunk.file_path = "bad" then none
    else some ⟨"", [⟨1, "look", "warning"⟩]⟩

/-- Concrete hunk contexts for the collaborator-failure witness. -/
def goodHunk : HunkContext := ⟨"good.py", "+a\n b", 2⟩

/-- The failing hunk for the collaborator-failure witness. -/
def badHunk : HunkContext := ⟨"bad", "+boom", 2⟩

/-- A two-hunk file for the position-monotonicity witness. -/
def twoHunkFile : PatchedFile :=
  ⟨"b.py", [⟨[⟨" ", "u"⟩]⟩, ⟨[⟨"+", "v"⟩, ⟨"+", "w"⟩, ⟨" ", "z"⟩]⟩]⟩

/-! ## Shared lemmas -/

/-- Everything `processHunks` emits carries the file's path, a start
position strictly past the running counter, and the joined rendering of
one of the file's nonempty hunks. -/
theorem processHunks_mem (path : String) :
    ∀ (hunks : List Hunk) (pos : Int) (hc : HunkContext),
      hc ∈ processHunks path pos hunks →
      hc.file_path = path ∧ pos + 1 ≤ hc.start_position ∧
        ∃ h ∈ hunks, hunkRendered h ≠ [] ∧
          hc.hunk_content = joinLines (hunkRendered h) := by
  intro hunks
  induction hunks with
  | nil => intro pos hc h; simp [processHunks] at h
  | cons hd tl ih =>
    intro pos hc hmem
    simp only [processHunks, List.mem_append] at hmem
    rcases hmem with hin | hin
    · by_cases hre : (hunkRendered hd).isEmpty
      · simp [hre] at hin
      · simp only [hre, if_neg, Bool.false_eq_true, not_false_iff,
          ite_false, List.mem_singleton] at hin
        subst hin
        refine ⟨rfl, le_refl _, hd, List.mem_cons_self hd tl, ?_, rfl⟩
        simpa [List.isEmpty_iff] using hre
    · obtain ⟨h1, h2, h, hh, hrest⟩ := ih (pos + 1 + (hunkRendered hd).length) hc hin
      refine ⟨h1, ?_, h, List.mem_cons_of_mem hd hh, hrest⟩
      have : (0 : Int) ≤ (hunkRendered hd).length := Int.natCast_nonneg _
      omega

/-- Membership in the structured parse comes from one of the non-skipped
files of the patch set. -/
theorem parse_structured_mem (ps : PatchSet) (hc : HunkContext)
    (h : hc ∈ parse_diff_with_positions ps) :
    ∃ f ∈ ps, ¬(f.path = "/dev/null" ∨ f.path = "") ∧
      hc ∈ processHunks f.path 1 f.hunks := by
  simp only [parse_diff_with_positions, List.mem_flatMap] at h
  obtain ⟨f, hf, hin⟩ := h
  by_cases hskip : f.path = "/dev/null" ∨ f.path = ""
  · simp [hskip] at hin
  · exact ⟨f, hf, hskip, by simpa [hskip] using hin⟩

/-- Position invariant of the fallback scanner: from a counter value of
at least 1, every emitted context starts at position at least 2. -/
theorem manualGo_start_ge :
    ∀ (ls : List String) (cf : Option String) (pos : Int), 1 ≤ pos →
      ∀ hc ∈ manualGo ls cf pos, 2 ≤ hc.start_position := by
  intro ls cf pos
  induction ls, cf, pos using manualGo.induct with
  | case1 => intro _ hc h; simp [manualGo] at h
  | case2 line rest cf pos h1 ih =>
    intro _ hc h
    rw [manualGo, if_pos h1] at h
    exact ih (by omega) hc h
  | case3 line rest current_file position h1 h2 cf ih =>
    intro hpos hc h
    simp only [manualGo, if_neg h1, if_pos h2] at h
    refine ih ?_ hc h
    split <;> omega
  | case4 line rest current_file position h1 h2 h3 hunk_lines ih =>
    intro hpos hc h
    rw [manualGo, if_neg h1, if_neg h2, if_pos h3] at h
    simp only [List.mem_append] at h
    rcases h with h | h
    · split at h
      · simp at h
      · simp only [List.mem_singleton] at h
        subst h
        show (2 : Int) ≤ position + 1
        omega
    · refine ih ?_ hc h
      have : (0 : Int) ≤ (List.takeWhile manualBody rest).length :=
        Int.natCast_nonneg _
      omega
  | case5 line rest current_file position h1 h2 h3 ih =>
    intro hpos hc h
    simp only [manualGo, if_neg h1, if_neg h2, if_neg h3] at h
    refine ih ?_ hc h
    split <;> omega

/-- A nonempty string stays nonempty under appending. -/
theorem string_append_ne_empty (s t : String) (hs : s ≠ "") : s ++ t ≠ "" := by
  intro h
  apply hs
  apply String.ext
  have hd := congrArg String.data h
  rw [String.data_append] at hd
  exact List.append_eq_nil.mp hd |>.1

/-- `joinLines` of a list whose head is nonempty is nonempty. -/
theorem joinLines_ne_empty (x : String) (xs : List String) (hx : x ≠ "") :
    joinLines (x :: xs) ≠ "" := by
  cases xs with
  | nil => exact hx
  | cons y ys =>
    show x ++ "\n" ++ joinLines (y :: ys) ≠ ""
    exact string_append_ne_empty _ _ (string_append_ne_empty x "\n" hx)

/-- The line list of the sample diff. -/
theorem splitlines_sampleDiff :
    splitlines sampleDiff =
      ["diff --git a/f b/f", "--- a/f", "+++ b/f", "@@ -1,3 +1,4 @@",
        " context1", "+added1", " context2", " context3"] := by
  decide

/-- Concrete run of the structured route on the sample diff. -/
theorem structured_eval_sampleDiff :
    parse_diff_structured sampleDiff = [⟨"f", sampleContent, 2⟩] := by
  simp +decide [parse_diff_structured, tokenize_spec, splitlines_sampleDiff,
    fileSegments, segHunks, pathOf, specBoundary, mkDiffLine, strTake,
    strDrop, strStartsWith, parse_diff_with_positions, processHunks,
    hunkRendered, renderLine, joinLines, sampleContent]

/-- Concrete run of the fallback route on the sample diff: every
position is off by one against the structured route. -/
theorem manual_eval_sampleDiff :
    parse_diff_manual sampleDiff = [⟨"f", sampleContent, 3⟩] := by
  simp +decide [parse_diff_manual, splitlines_sampleDiff, manualGo, strDrop,
    truthy, manualBody, joinLines, sampleContent]

/-- Length and successor-start positions of `processHunks` when every
hunk has at least one line. -/
theorem processHunks_succ_start (path : String) :
    ∀ (hunks : List Hunk) (pos : Int),
      (∀ h ∈ hunks, hunkRendered h ≠ []) →
      (processHunks path pos hunks).length = hunks.length ∧
        ∀ i : Nat, i + 1 < (processHunks path pos hunks).length →
          ((processHunks path pos hunks)[i + 1]!).start_position =
            ((processHunks path pos hunks)[i]!).start_position + 1 +
              (hunkRendered hunks[i]!).length := by
  intro hunks
  induction hunks with
  | nil => intro pos _; simp [processHunks]
  | cons hd tl ih =>
    intro pos hne
    have hhd : ¬(hunkRendered hd).isEmpty = true := by
      simp only [List.isEmpty_iff]
      exact hne hd (List.mem_cons_self hd tl)
    have heq : processHunks path pos (hd :: tl) =
        ⟨path, joinLines (hunkRendered hd), pos + 1⟩ ::
          processHunks path (pos + 1 + (hunkRendered hd).length) tl := by
      rw [processHunks]
      simp [hhd]
    obtain ⟨ihlen, ihsucc⟩ :=
      ih (pos + 1 + (hunkRendered hd).length)
        (fun h hh => hne h (List.mem_cons_of_mem hd hh))
    constructor
    · rw [heq, List.length_cons, ihlen, List.length_cons]
    · intro i hi
      rw [heq] at hi ⊢
      cases i with
      | zero =>
        simp only [List.getElem!_cons_succ, List.getElem!_cons_zero]
        cases tl with
        | nil => simp [processHunks] at hi
        | cons h2 t2 =>
          have hh2 : ¬(hunkRendered h2).isEmpty = true := by
            simp only [List.isEmpty_iff]
            exact hne h2 (List.mem_cons_of_mem hd (List.mem_cons_self h2 t2))
          have heq2 : processHunks path (pos + 1 + (hunkRendered hd).length) (h2 :: t2) =
              ⟨path, joinLines (hunkRendered h2),
                  pos + 1 + (hunkRendered hd).length + 1⟩ ::
                processHunks path
                  (pos + 1 + (hunkRendered hd).length + 1 + (hunkRendered h2).length) t2 := by
            rw [processHunks]
            simp [hh2]
          rw [heq2]
          simp only [List.getElem!_cons_zero]
          change pos + 1 + ((hunkRendered hd).length : Int) + 1 =
            pos + 1 + 1 + ((hunkRendered hd).length : Int)
          omega
      | succ j =>
        simp only [List.getElem!_cons_succ]
        refine ihsucc j ?_
        simp only [List.length_cons] at hi
        omega

/-! ## Claims -/

/-- C3: for every file in the parsed output (all of whose hunks carry at
least one line, as the tokenizer guarantees), the start positions of its
successive hunks are strictly increasing, and hunk `i+1` starts exactly
1 (for the header) plus the content line count of hunk `i` after hunk
`i` (`main.py:158-179`). -/
theorem c3_successive_hunk_positions (f : PatchedFile)
    (hpath : f.path ≠ "/dev/null" ∧ f.path ≠ "")
    (hne : ∀ h ∈ f.hunks, hunkRendered h ≠ [])
    (i : Nat) (hi : i + 1 < (parse_diff_with_positions [f]).length) :
    ((parse_diff_with_positions [f])[i]!).start_position <
        ((parse_diff_with_positions [f])[i + 1]!).start_position ∧
      ((parse_diff_with_positions [f])[i + 1]!).start_position =
        ((parse_diff_with_positions [f])[i]!).start_position + 1 +
          (hunkRendered f.hunks[i]!).length := by
  have hps : parse_diff_with_positions [f] = processHunks f.path 1 f.hunks := by
    simp [parse_diff_with_positions, hpath.1, hpath.2]
  rw [hps] at hi ⊢
  obtain ⟨-, hsucc⟩ := processHunks_succ_start f.path f.hunks 1 hne
  have heq := hsucc i hi
  refine ⟨?_, heq⟩
  have hlen : (0 : Int) ≤ (hunkRendered f.hunks[i]!).length := Int.natCast_nonneg _
  omega

/-- C3 witness: the two-hunk file, first pair of hunks. -/
theorem c3_successive_hunk_positions_witness :
    ((parse_diff_with_positions [twoHunkFile])[0]!).start_position <
        ((parse_diff_with_positions [twoHunkFile])[0 + 1]!).start_position ∧
      ((parse_diff_with_positions [twoHunkFile])[0 + 1]!).start_position =
        ((parse_diff_with_positions [twoHunkFile])[0]!).start_position + 1 +
          (hunkRendered twoHunkFile.hunks[0]!).length :=
  c3_successive_hunk_positions twoHunkFile (by decide) (by decide) 0 (by decide)

/-- C5: the structured parser yields no `HunkContext` for a file whose
target path indicates deletion (the null-device sentinel `/dev/null` or
an absent path): all hunks of such a file are skipped
(`main.py:155-156`). -/
theorem c5_deleted_file_skipped (ps : PatchSet) :
    parse_diff_with_positions ps =
        parse_diff_with_positions
          (ps.filter fun f => f.path != "/dev/null" && f.path != "") ∧
      ∀ hc ∈ parse_diff_with_positions ps,
        hc.file_path ≠ "/dev/null" ∧ hc.file_path ≠ "" := by
  constructor
  · induction ps with
    | nil => rfl
    | cons f rest ih =>
      by_cases hskip : f.path = "/dev/null" ∨ f.path = ""
      · have hb : (f.path != "/dev/null" && f.path != "") = false := by
          rcases hskip with h | h <;> simp [h]
        simp only [parse_diff_with_positions, List.flatMap_cons,
          List.filter_cons, hb, Bool.false_eq_true, if_false] at ih ⊢
        simp [hskip, ih]
      · have hb : (f.path != "/dev/null" && f.path != "") = true := by
          push_neg at hskip
          simp [hskip.1, hskip.2]
        simp only [parse_diff_with_positions, List.flatMap_cons,
          List.filter_cons, hb, if_true] at ih ⊢
        rw [ih]
  · intro hc hmem
    obtain ⟨f, _, hskip, hin⟩ := parse_structured_mem ps hc hmem
    have hpath := (processHunks_mem f.path f.hunks 1 hc hin).1
    push_neg at hskip
    rw [hpath]
    exact hskip

/-- C5 witness: on the concrete patch set with a deletion segment, the
theorem applies to the first yielded context. -/
theorem c5_deleted_file_skipped_witness :
    parse_diff_with_positions sampleSet =
        parse_diff_with_positions
          (sampleSet.filter fun f => f.path != "/dev/null" && f.path != "") ∧
      (⟨"a.py", "+x\n y", 2⟩ : HunkContext).file_path ≠ "/dev/null" ∧
      (⟨"a.py", "+x\n y", 2⟩ : HunkContext).file_path ≠ "" := by
  refine ⟨(c5_deleted_file_skipped sampleSet).1, ?_⟩
  exact (c5_deleted_file_skipped sampleSet).2 ⟨"a.py", "+x\n y", 2⟩ (by decide)

/-- C6: every `HunkContext` produced by either parser satisfies
`start_position ≥ 2` (`main.py:159-163` and `main.py:189-203`). -/
theorem c6_start_position_ge_two (ps : PatchSet) (t : String)
    (hc₁ hc₂ : HunkContext)
    (h₁ : hc₁ ∈ parse_diff_with_positions ps)
    (h₂ : hc₂ ∈ parse_diff_manual t) :
    2 ≤ hc₁.start_position ∧ 2 ≤ hc₂.start_position := by
  constructor
  · obtain ⟨f, _, _, hin⟩ := parse_structured_mem ps hc₁ h₁
    have := (processHunks_mem f.path f.hunks 1 hc₁ hin).2.1
    omega
  · exact manualGo_start_ge (splitlines t) none 1 (le_refl 1) hc₂ h₂

/-- C6 witness: the bound at concrete outputs of both parsers. -/
theorem c6_start_position_ge_two_witness :
    2 ≤ (⟨"a.py", "+x\n y", 2⟩ : HunkContext).start_position ∧
      2 ≤ (⟨"f", sampleContent, 3⟩ : HunkContext).start_position :=
  c6_start_position_ge_two sampleSet sampleDiff _ _ (by decide)
    (by
      have hs : splitlines sampleDiff =
          ["diff --git a/f b/f", "--- a/f", "+++ b/f", "@@ -1,3 +1,4 @@",
            " context1", "+added1", " context2", " context3"] := by decide
      simp +decide [parse_diff_manual, hs, manualGo, strDrop, truthy,
        manualBody, joinLines, sampleContent])

/-- C7 counterexample: the fallback scanner run on a diff whose hunk body
is a single empty line yields a `HunkContext` whose `hunk_content` is the
empty string, refuting "neither parser ever yields a HunkContext with
empty hunk_content". -/
theorem c7_empty_hunk_content_counterexample :
    ∃ hc ∈ parse_diff_manual emptyLineDiff, hc.hunk_content = "" := by
  have hs : splitlines emptyLineDiff = ["+++ b/f", "@@ -1 +1 @@", ""] := by
    decide
  have heval : parse_diff_manual emptyLineDiff = [⟨"f", "", 3⟩] := by
    simp +decide [parse_diff_manual, hs, manualGo, strDrop, truthy,
      manualBody, joinLines]
  rw [heval]
  exact ⟨⟨"f", "", 3⟩, List.mem_singleton.mpr rfl, rfl⟩

/-- C7 amended: a hunk with zero content lines after its range header is
dropped by both parsers (nothing is emitted for it); the structured
parser moreover never yields an empty `hunk_content` as long as every
diff line carries its kind marker; only the fallback can produce an
empty `hunk_content`, when the hunk's sole content line is empty
(`main.py:166-179` and `main.py:204-220`). -/
theorem c7_amended_zero_line_hunk_dropped :
    (∀ (path : String) (pos : Int) (h : Hunk) (rest : List Hunk),
        hunkRendered h = [] →
        processHunks path pos (h :: rest) = processHunks path (pos + 1) rest) ∧
      (∀ ps : PatchSet,
        (∀ f ∈ ps, ∀ h ∈ f.hunks, ∀ l ∈ h.lines, l.line_type ≠ "") →
        ∀ hc ∈ parse_diff_with_positions ps, hc.hunk_content ≠ "") ∧
      (∀ (hdr : String) (rest : List String) (cf : Option String) (pos : Int),
        strStartsWith hdr "diff --git" = false →
        strStartsWith hdr "+++ b/" = false →
        (strStartsWith hdr "@@" && truthy cf) = true →
        rest.takeWhile manualBody = [] →
        manualGo (hdr :: rest) cf pos = manualGo rest cf (pos + 1)) := by
  refine ⟨?_, ?_, ?_⟩
  · intro path pos h rest hre
    rw [processHunks]
    simp [hre]
  · intro ps hmark hc hmem
    obtain ⟨f, hf, -, hin⟩ := parse_structured_mem ps hc hmem
    obtain ⟨-, -, h, hh, hne, hcontent⟩ := processHunks_mem f.path f.hunks 1 hc hin
    rw [hcontent]
    cases hr : hunkRendered h with
    | nil => exact absurd hr hne
    | cons r rs =>
      refine joinLines_ne_empty r rs ?_
      have : r ∈ hunkRendered h := by rw [hr]; exact List.mem_cons_self r rs
      obtain ⟨l, hl, hrl⟩ := List.mem_map.mp this
      rw [← hrl]
      exact string_append_ne_empty _ _ (hmark f hf h hh l hl)
  · intro hdr rest cf pos h1 h2 h3 htake
    have hdrop : rest.dropWhile manualBody = rest := by
      have hsplit := List.takeWhile_append_dropWhile (p := manualBody) (l := rest)
      rw [htake] at hsplit
      simpa using hsplit
    rw [manualGo, if_neg (by simp [h1]), if_neg (by simp [h2]), if_pos h3,
      htake, hdrop]
    simp

/-- C7 amended witness: the three parts at concrete inputs. -/
theorem c7_amended_zero_line_hunk_dropped_witness :
    processHunks "f" 1 [⟨[]⟩, ⟨[⟨"+", "x"⟩]⟩] =
        processHunks "f" (1 + 1) [⟨[⟨"+", "x"⟩]⟩] ∧
      ((⟨"a.py", "+x\n y", 2⟩ : HunkContext).hunk_content ≠ "") ∧
      manualGo ["@@ -1 +1 @@", "diff --git a/g b/g"] (some "f") 2 =
        manualGo ["diff --git a/g b/g"] (some "f") (2 + 1) := by
  refine ⟨?_, ?_, ?_⟩
  · exact (c7_amended_zero_line_hunk_dropped).1 "f" 1 ⟨[]⟩ [⟨[⟨"+", "x"⟩]⟩] (by decide)
  · exact (c7_amended_zero_line_hunk_dropped).2.1 sampleSet (by decide)
      ⟨"a.py", "+x\n y", 2⟩ (by decide)
  · exact (c7_amended_zero_line_hunk_dropped).2.2 "@@ -1 +1 @@"
      ["diff --git a/g b/g"] (some "f") 2 (by decide) (by decide) (by decide)
      (by decide)

/-- C9: when the analysis collaborator fails for one hunk, that hunk's
findings are all skipped, a diagnostic is logged, and the comments
produced for the other hunks are exactly those produced when the failing
hunk is absent (`main.py:284-316`). -/
theorem c9_collaborator_failure_isolated
    (agent : HunkContext → Option ReviewResult) (hunk : HunkContext)
    (xs ys : List HunkContext) (hfail : agent hunk = none) :
    (analyze_hunks agent (xs ++ hunk :: ys)).1 =
        (analyze_hunks agent (xs ++ ys)).1 ∧
      errMsg hunk ∈ (analyze_hunks agent (xs ++ hunk :: ys)).2 := by
  induction xs with
  | nil =>
    simp [analyze_hunks, hfail]
  | cons x xs ih =>
    simp only [List.cons_append, analyze_hunks, List.append_eq]
    cases hx : agent x with
    | none =>
      simp only [hx]
      exact ⟨by rw [ih.1], List.mem_cons_of_mem _ ih.2⟩
    | some rr =>
      simp only [hx]
      exact ⟨by rw [ih.1], List.mem_append.mpr (Or.inr ih.2)⟩

/-- C9 witness: the stub collaborator failing on the middle hunk. -/
theorem c9_collaborator_failure_isolated_witness :
    (analyze_hunks sampleAgent ([goodHunk] ++ badHunk :: [goodHunk])).1 =
        (analyze_hunks sampleAgent ([goodHunk] ++ [goodHunk])).1 ∧
      errMsg badHunk ∈
        (analyze_hunks sampleAgent ([goodHunk] ++ badHunk :: [goodHunk])).2 :=
  c9_collaborator_failure_isolated sampleAgent badHunk [goodHunk] [goodHunk]
    (by decide)

/-- The fallback scanner emits nothing while no added-file marker has
established a truthy current file: the region before the first `+++ b/`
line — orphan `@@` headers included — contributes no `HunkContext`, and
scanning resumes at the remainder with a still-falsy current file. -/
theorem manualGo_no_current_file :
    ∀ (pre suf : List String) (cf : Option String) (pos : Int),
      truthy cf = false →
      (∀ l ∈ pre, strStartsWith l "+++ b/" = false) →
      ∃ (cf₂ : Option String) (pos₂ : Int), truthy cf₂ = false ∧
        manualGo (pre ++ suf) cf pos = manualGo suf cf₂ pos₂ := by
  intro pre
  induction pre with
  | nil => intro suf cf pos hcf _; exact ⟨cf, pos, hcf, rfl⟩
  | cons l pre ih =>
    intro suf cf pos hcf hpre
    have hl : strStartsWith l "+++ b/" = false := hpre l (List.mem_cons_self l pre)
    have hpre₂ : ∀ x ∈ pre, strStartsWith x "+++ b/" = false :=
      fun x hx => hpre x (List.mem_cons_of_mem l hx)
    rw [List.cons_append]
    by_cases h1 : strStartsWith l "diff --git" = true
    · rw [manualGo, if_pos h1]
      exact ih suf none 1 rfl hpre₂
    · rw [manualGo, if_neg h1, if_neg (by simp [hl]), if_neg (by simp [hcf])]
      exact ih suf cf _ hcf hpre₂

/-- C10: in the fallback scanner, a hunk header occurring before any
added-file path marker has established a current file produces no
`HunkContext` — the whole region up to the first `+++ b/` marker is
consumed without emitting anything — and `parse_diff_manual` is a total
function (`main.py:199-224`). -/
theorem c10_orphan_hunk_header_ignored (t : String) (pre suf : List String)
    (hsplit : splitlines t = pre ++ suf)
    (hpre : ∀ l ∈ pre, strStartsWith l "+++ b/" = false) :
    ∃ (cf₂ : Option String) (pos₂ : Int), truthy cf₂ = false ∧
      parse_diff_manual t = manualGo suf cf₂ pos₂ := by
  unfold parse_diff_manual
  rw [hsplit]
  exact manualGo_no_current_file pre suf none 1 rfl hpre

/-- C10 witness: the diff whose first header precedes the file marker. -/
theorem c10_orphan_hunk_header_ignored_witness :
    ∃ (cf₂ : Option String) (pos₂ : Int), truthy cf₂ = false ∧
      parse_diff_manual orphanHeaderDiff =
        manualGo ["+++ b/f", "@@ -1 +1,1 @@", "+x"] cf₂ pos₂ :=
  c10_orphan_hunk_header_ignored orphanHeaderDiff
    ["@@ -1,2 +1,2 @@", " context", "+late"] ["+++ b/f", "@@ -1 +1,1 @@", "+x"]
    (by decide) (by decide)

/-- The loop of `filter_hunks_by_file` is the filter on the complement of
`should_exclude_file`. -/
theorem filter_hunks_by_file_eq_filter (hunks : List HunkContext) (pats : List String) :
    filter_hunks_by_file hunks pats =
      hunks.filter fun h => !should_exclude_file h.file_path pats := by
  induction hunks with
  | nil => rfl
  | cons h rest ih =>
    by_cases hx : should_exclude_file h.file_path pats
    · rw [filter_hunks_by_file, if_pos hx, List.filter_cons]
      simp [hx, ih]
    · rw [filter_hunks_by_file, if_neg hx, List.filter_cons]
      simp only [Bool.not_eq_true] at hx
      simp [hx, ih]

/-- C8: `filter_hunks_by_file` retains a context iff its path matches no
exclusion pattern, preserves relative order (it is the evident filter),
is the identity on an empty pattern set, and is idempotent
(`main.py:253-272`). -/
theorem c8_filter_contract (hunks : List HunkContext) (pats : List String) :
    filter_hunks_by_file hunks pats =
        (hunks.filter fun h => !should_exclude_file h.file_path pats) ∧
      (∀ hc : HunkContext, hc ∈ filter_hunks_by_file hunks pats ↔
        hc ∈ hunks ∧ ∀ p ∈ pats, fnmatch hc.file_path p = false) ∧
      filter_hunks_by_file hunks [] = hunks ∧
      filter_hunks_by_file (filter_hunks_by_file hunks pats) pats =
        filter_hunks_by_file hunks pats := by
  refine ⟨filter_hunks_by_file_eq_filter hunks pats, ?_, ?_, ?_⟩
  · intro hc
    rw [filter_hunks_by_file_eq_filter, List.mem_filter]
    simp [should_exclude_file, List.any_eq_false]
  · rw [filter_hunks_by_file_eq_filter]
    simp [should_exclude_file]
  · rw [filter_hunks_by_file_eq_filter (filter_hunks_by_file hunks pats) pats,
      filter_hunks_by_file_eq_filter hunks pats, List.filter_filter]
    simp only [Bool.and_self]

/-- C8 witness: the contract at the concrete scenario of spec section 8
(`*.md` against `README.md` and `src/app.py` hunks). -/
theorem c8_filter_contract_witness :
    filter_hunks_by_file
          [⟨"README.md", "+a", 2⟩, ⟨"src/app.py", "+b", 2⟩, ⟨"README.md", "+c", 5⟩]
          ["*.md"] =
        (([⟨"README.md", "+a", 2⟩, ⟨"src/app.py", "+b", 2⟩,
            ⟨"README.md", "+c", 5⟩] :
          List HunkContext).filter fun h => !should_exclude_file h.file_path ["*.md"]) ∧
      (∀ hc : HunkContext, hc ∈ filter_hunks_by_file
            [⟨"README.md", "+a", 2⟩, ⟨"src/app.py", "+b", 2⟩, ⟨"README.md", "+c", 5⟩]
            ["*.md"] ↔
        hc ∈ [⟨"README.md", "+a", 2⟩, ⟨"src/app.py", "+b", 2⟩, ⟨"README.md", "+c", 5⟩] ∧
          ∀ p ∈ ["*.md"], fnmatch hc.file_path p = false) ∧
      filter_hunks_by_file
          [⟨"README.md", "+a", 2⟩, ⟨"src/app.py", "+b", 2⟩, ⟨"README.md", "+c", 5⟩] [] =
        [⟨"README.md", "+a", 2⟩, ⟨"src/app.py", "+b", 2⟩, ⟨"README.md", "+c", 5⟩] ∧
      filter_hunks_by_file
          (filter_hunks_by_file
            [⟨"README.md", "+a", 2⟩, ⟨"src/app.py", "+b", 2⟩, ⟨"README.md", "+c", 5⟩]
            ["*.md"])
          ["*.md"] =
        filter_hunks_by_file
          [⟨"README.md", "+a", 2⟩, ⟨"src/app.py", "+b", 2⟩, ⟨"README.md", "+c", 5⟩]
          ["*.md"] :=
  c8_filter_contract
    [⟨"README.md", "+a", 2⟩, ⟨"src/app.py", "+b", 2⟩, ⟨"README.md", "+c", 5⟩]
    ["*.md"]

/-- C4: a finding whose `line_number` lies within `1 ≤ n ≤ N` (with `N`
the line count of `hunk_content`) yields exactly one comment at
`start_position + (line_number - 1)`; any other value yields no comment
but a diagnostic, and the remaining findings of the batch are still
processed (`main.py:297-312`). -/
theorem c4_resolver_bounds (hunk : HunkContext) (item : ReviewItem)
    (rest : List ReviewItem) :
    (1 ≤ item.line_number ∧
        item.line_number ≤ ((splitlines hunk.hunk_content).length : Int) →
      process_reviews hunk (item :: rest) =
        (⟨hunk.file_path, hunk.start_position + (item.line_number - 1),
            "**[" ++ item.severity.toUpper ++ "]** " ++ item.review_comment⟩ ::
            (process_reviews hunk rest).1,
          (process_reviews hunk rest).2)) ∧
      (item.line_number < 1 ∨
          item.line_number > ((splitlines hunk.hunk_content).length : Int) →
        process_reviews hunk (item :: rest) =
          ((process_reviews hunk rest).1,
            outOfRangeMsg item hunk :: (process_reviews hunk rest).2)) := by
  constructor
  · rintro ⟨h1, h2⟩
    have hres : resolve_item hunk item =
        some ⟨hunk.file_path, hunk.start_position + (item.line_number - 1),
          "**[" ++ item.severity.toUpper ++ "]** " ++ item.review_comment⟩ := by
      simp only [resolve_item]
      rw [if_neg (by omega)]
    rw [process_reviews, hres]
  · intro h
    have hres : resolve_item hunk item = none := by
      simp only [resolve_item]
      rw [if_pos (by omega)]
    rw [process_reviews, hres]

/-- C4 witness: the in-range and out-of-range cases at the sample
hunk. -/
theorem c4_resolver_bounds_witness :
    process_reviews ⟨"f", sampleContent, 2⟩ [⟨2, "i", "warning"⟩] =
        (⟨"f", (2 : Int) + ((2 : Int) - 1),
            "**[" ++ ("warning").toUpper ++ "]** " ++ "i"⟩ ::
            (process_reviews ⟨"f", sampleContent, 2⟩ []).1,
          (process_reviews ⟨"f", sampleContent, 2⟩ []).2) ∧
      process_reviews ⟨"f", sampleContent, 2⟩ [⟨5, "j", "x"⟩] =
        ((process_reviews ⟨"f", sampleContent, 2⟩ []).1,
          outOfRangeMsg ⟨5, "j", "x"⟩ ⟨"f", sampleContent, 2⟩ ::
            (process_reviews ⟨"f", sampleContent, 2⟩ []).2) :=
  ⟨(c4_resolver_bounds ⟨"f", sampleContent, 2⟩ ⟨2, "i", "warning"⟩ []).1
      (by constructor <;> decide),
    (c4_resolver_bounds ⟨"f", sampleContent, 2⟩ ⟨5, "j", "x"⟩ []).2
      (by right; decide)⟩

/-- C1: the two parsing modes do not agree on a minimal well-formed
diff — the structured route reports start position 2 for the single hunk
while the fallback reports 3 (the fallback also counts the `+++ b/`
marker line, `main.py:199` followed by `main.py:223-224`), so the claimed
two-parser agreement fails on the code. -/
theorem c1_two_parser_disagreement :
    (parse_diff_structured sampleDiff).map
        (fun hc => (hc.file_path, hc.start_position)) = [("f", 2)] ∧
      (parse_diff_manual sampleDiff).map
        (fun hc => (hc.file_path, hc.start_position)) = [("f", 3)] ∧
      (parse_diff_structured sampleDiff).map
          (fun hc => (hc.file_path, hc.start_position)) ≠
        (parse_diff_manual sampleDiff).map
          (fun hc => (hc.file_path, hc.start_position)) := by
  refine ⟨?_, ?_, ?_⟩
  · rw [structured_eval_sampleDiff]
    rfl
  · rw [manual_eval_sampleDiff]
    rfl
  · rw [structured_eval_sampleDiff, manual_eval_sampleDiff]
    decide

/-- C2: on the single-file single-hunk scenario diff (range header
`@@ -1,3 +1,4 @@`, four content lines) the structured parse yields one
`HunkContext` with `start_position = 2` and four content lines, and a
finding at `line_number = 2` resolves to absolute position 3
(`main.py:154-181` and `main.py:297-312`). -/
theorem c2_scenario_start_position_and_resolution :
    parse_diff_structured sampleDiff = [⟨"f", sampleContent, 2⟩] ∧
      (splitlines sampleContent).length = 4 ∧
      ∀ comment severity : String,
        (resolve_item ⟨"f", sampleContent, 2⟩ ⟨2, comment, severity⟩).map
          (fun c => c.position) = some 3 := by
  refine ⟨structured_eval_sampleDiff, by decide, ?_⟩
  intro comment severity
  have hlen : (splitlines sampleContent).length = 4 := by decide
  simp +decide [resolve_item, hlen]

end Reviewer
